import Mathlib

/-!
Verification development for the ExaTN tensor-network engine core
(shallow embedding of `src/numerics/metis_graph.cpp`,
`src/numerics/tensor_op_*.cpp`, `src/numerics/tensor_connected.cpp`,
`src/exatn/reconstructor.cpp` and `src/utils/mpi_proxy.cpp`).

Machine integers: METIS `idx_t` is a signed integer type; vertex ids and
`xadj_` offsets are modelled as `Nat` (the code keeps them nonnegative on
the executions considered here), while the weight vectors `vwgt_` and
`adjwgt_`, on which signed subtraction (`w - 1`) occurs, are modelled as
`Int`.
-/

namespace ExaTN

/-- The METIS graph CSR record (`metis_graph.hpp`): `num_vertices_`,
`xadj_`, `adjncy_`, `vwgt_`, `adjwgt_`, `renumber_`.  Partition-related
fields (`partitions_`, `tpwgts_`, ...) play no role in the claims below
and are omitted. -/
structure MetisGraph where
  num_vertices : Nat
  xadj : List Nat
  adjncy : List Nat
  vwgt : List Int
  adjwgt : List Int
  renumber : List Nat
deriving Repr, DecidableEq

/-- `MetisGraph::MetisGraph()` + `initMetisGraph()`: empty graph with
`xadj_ = {0}` (metis_graph.cpp:22-45). -/
def MetisGraph.empty : MetisGraph :=
  { num_vertices := 0, xadj := [0], adjncy := [], vwgt := [], adjwgt := [], renumber := [] }

/-- `MetisGraph::appendVertex` (metis_graph.cpp:310-322): appends the
adjacent vertices and edge weights of a new vertex, extends `xadj_` by
`xadj_[num_vertices_] + num_edges`, appends the vertex weight, and
increments `num_vertices_`.  (`clearPartitions()` only touches fields not
modelled here.) -/
def MetisGraph.appendVertex (g : MetisGraph) (adj_vertices : List Nat)
    (edge_weights : List Int) (vertex_weight : Int) : MetisGraph :=
  { g with
    adjncy := g.adjncy ++ adj_vertices
    adjwgt := g.adjwgt ++ edge_weights
    xadj := g.xadj ++ [g.xadj.getD g.num_vertices 0 + adj_vertices.length]
    vwgt := g.vwgt ++ [vertex_weight]
    num_vertices := g.num_vertices + 1 }

/-- The sorted two-way merge loop of `MetisGraph::mergeVertices`
(metis_graph.cpp:391-412), structurally recursive on the number of
remaining loop iterations (each iteration consumes one element): at each
step the pair with the smaller adjacent-vertex id is taken, preferring
the first list on ties (`edges1[j1] <= edges2[j2]`). -/
def mergeSortedPairsFuel : Nat → List (Nat × Int) → List (Nat × Int) → List (Nat × Int)
  | 0, l1, l2 => l1 ++ l2
  | _ + 1, [], l2 => l2
  | _ + 1, l1, [] => l1
  | fuel + 1, a :: r1, b :: r2 =>
    if a.1 ≤ b.1 then a :: mergeSortedPairsFuel fuel r1 (b :: r2)
    else b :: mergeSortedPairsFuel fuel (a :: r1) r2

/-- The two-way merge at its exact iteration count (the loop of
metis_graph.cpp:391-412 runs until both halves are consumed). -/
def mergeSortedPairs (l1 l2 : List (Nat × Int)) : List (Nat × Int) :=
  mergeSortedPairsFuel (l1.length + l2.length) l1 l2

/-- The edge deletion/combination loop of `MetisGraph::mergeVertices`
(metis_graph.cpp:415-429), which walks the merged adjacency block of
vertex 1 downward from its last position to its second position.  The
argument list is the block in reverse order (the loop's travel order);
at each step the current entry `x` is compared with its left neighbour
`y`: a contracted edge (`adjncy_[i] == vertex1 || adjncy_[i] == vertex2`)
is deleted; an edge with the same adjacent vertex as its left neighbour
is absorbed into it (`adjwgt_[i-1] += (adjwgt_[i] - 1)`) and deleted;
otherwise the entry is kept.  `x` is the entry under examination and the
list holds the entries at lower positions, still in reverse order; the
first position of the block (the final `x` alone) is not examined by this
loop (it is handled afterwards, metis_graph.cpp:430-434). -/
def delLoopRevAux (v1 v2 : Nat) : (Nat × Int) → List (Nat × Int) → List (Nat × Int)
  | x, [] => [x]
  | x, y :: rest =>
    if x.1 = v1 ∨ x.1 = v2 then delLoopRevAux v1 v2 y rest
    else if x.1 = y.1 then delLoopRevAux v1 v2 (y.1, y.2 + x.2 - 1) rest
    else x :: delLoopRevAux v1 v2 y rest

/-- See `delLoopRevAux`; the empty block has no positions to visit. -/
def delLoopRev (v1 v2 : Nat) : List (Nat × Int) → List (Nat × Int)
  | [] => []
  | x :: l => delLoopRevAux v1 v2 x l

/-- The in-place move of the adjacency block of vertex 2 to the position
right behind the block of vertex 1 (metis_graph.cpp:367-378): the copy
loops shift the segment `[e1, x2)` up by `n2` places and write the saved
block `[x2, e2)` of vertex 2 at offset `e1`.  The net effect on the flat
array is this four-segment splice. -/
def moveSegment {α : Type} (e1 x2 e2 : Nat) (l : List α) : List α :=
  l.take e1 ++ (l.drop x2).take (e2 - x2) ++ (l.drop e1).take (x2 - e1) ++ l.drop e2

/-- The body of `MetisGraph::mergeVertices` (metis_graph.cpp:361-444) for
already-ordered valid vertex ids `v1 < v2 < num_vertices`:
1. absorb the weight of vertex 2 into vertex 1 and erase it
   (lines 362-363);
2. splice the adjacency block of vertex 2 right behind the block of
   vertex 1 and shift `xadj_` of the vertices in between (lines 365-378);
3. sort the combined block by a two-way merge; the source loads the
   edge weights of both halves from `adjncy_` rather than `adjwgt_`
   (lines 383-390: `edge_weights1[i] = adjncy_[offset++]`), and this
   transcription is preserved faithfully here;
4. delete contracted edges and combine parallel edges (lines 415-429),
   then examine the first position of the block, deleting it if it holds
   `vertex1` (lines 430-434; the source indexes `adjncy_[xadj_[vertex1]]`
   unconditionally, which is an out-of-range read when the whole array
   was emptied -- modelled as a no-op via `List.get?`);
5. subtract the number of deleted edges from the `xadj_` entries behind
   vertex 1, erase `xadj_[vertex2]`, rewrite adjacency entries equal to
   `vertex2` to `vertex1`, and decrement `num_vertices_`
   (lines 435-441). -/
def MetisGraph.mergeBody (g : MetisGraph) (v1 v2 : Nat) : MetisGraph :=
  -- vwgt_[vertex1] += (vwgt_[vertex2] - 1); erase vertex2:
  let vw := (g.vwgt.set v1 (g.vwgt.getD v1 0 + (g.vwgt.getD v2 0 - 1))).eraseIdx v2
  let x1 := g.xadj.getD v1 0
  let e1 := g.xadj.getD (v1 + 1) 0
  let x2 := g.xadj.getD v2 0
  let e2 := g.xadj.getD (v2 + 1) 0
  let n1 := e1 - x1
  let n2 := e2 - x2
  -- move the edges of vertex 2 right behind the block of vertex 1:
  let an1 := moveSegment e1 x2 e2 g.adjncy
  let aw1 := moveSegment e1 x2 e2 g.adjwgt
  -- xadj_[vert] += num_edges2 for vertex1 < vert <= vertex2:
  let xa1 := g.xadj.mapIdx (fun vert w => if v1 < vert ∧ vert ≤ v2 then w + n2 else w)
  -- sort the combined edges of vertex 1; the edge weights of both
  -- halves are read from adjncy_ (metis_graph.cpp:385,389):
  let blockIds := (an1.drop x1).take (n1 + n2)
  let edges1 := blockIds.take n1
  let edge_weights1 : List Int := (blockIds.take n1).map Int.ofNat
  let edges2 := blockIds.drop n1
  let edge_weights2 : List Int := (blockIds.drop n1).map Int.ofNat
  let merged := mergeSortedPairs (edges1.zip edge_weights1) (edges2.zip edge_weights2)
  -- delete contracted edges, combine parallel edges:
  let blk := (delLoopRev v1 v2 merged.reverse).reverse
  let an2 := an1.take x1 ++ blk.map Prod.fst ++ an1.drop (x1 + n1 + n2)
  let aw2 := aw1.take x1 ++ blk.map Prod.snd ++ aw1.drop (x1 + n1 + n2)
  let del1 := merged.length - blk.length
  -- if(adjncy_[xadj_[vertex1]] == vertex1) erase it:
  let headHit := an2.get? x1 = some v1
  let an3 := if headHit then an2.eraseIdx x1 else an2
  let aw3 := if headHit then aw2.eraseIdx x1 else aw2
  let numDel := if headHit then del1 + 1 else del1
  -- xadj_[vert] -= num_deleted for vertex1 < vert <= num_vertices_:
  let xa2 := xa1.mapIdx (fun vert w => if v1 < vert then w - numDel else w)
  -- erase xadj_[vertex2]; rewrite vertex2 -> vertex1; --num_vertices_:
  let xa3 := xa2.eraseIdx v2
  let an4 := an3.map (fun a => if a = v2 then v1 else a)
  { num_vertices := g.num_vertices - 1, xadj := xa3, adjncy := an4,
    vwgt := vw, adjwgt := aw3, renumber := [] }

/-- `MetisGraph::mergeVertices` (metis_graph.cpp:353-445).  Returns the
`bool` result together with the updated graph: `renumber_` is cleared
first (line 357), equal or out-of-range ids are rejected (line 359), the
two ids are ordered (line 360), and the merge body runs. -/
def MetisGraph.mergeVertices (g0 : MetisGraph) (u v : Nat) : Bool × MetisGraph :=
  let g := { g0 with renumber := [] }
  if u = v ∨ g.num_vertices ≤ u ∨ g.num_vertices ≤ v then (false, g)
  else (true, g.mergeBody (min u v) (max u v))

/-! ## Byte-packet serialization (metis_graph.cpp:201-262)

`appendToBytePacket`/`extractFromBytePacket` write and read fixed-width
integers in FIFO order; a packet is modelled as a list of integer values
(the wire format stores each as a 64-bit little-endian word). -/

/-- `appendToBytePacket` of one vector: its length followed by its
elements (metis_graph.cpp:206-208 and analogous). -/
def packVecZ (v : List Int) : List Int := (v.length : Int) :: v

/-- `packVecZ` for a vector held as naturals (`idx_t` values that stay
nonnegative). -/
def packVecN (v : List Nat) : List Int := (v.length : Int) :: v.map Int.ofNat

/-- `MetisGraph::pack` (metis_graph.cpp:201-226): `num_vertices_`, then
the length-prefixed vectors `renumber_`, `xadj_`, `adjncy_`, `vwgt_`,
`adjwgt_`, in this order. -/
def MetisGraph.pack (g : MetisGraph) : List Int :=
  (g.num_vertices : Int) :: (packVecN g.renumber ++ packVecN g.xadj
    ++ packVecN g.adjncy ++ packVecZ g.vwgt ++ packVecZ g.adjwgt)

/-- `extractFromBytePacket` of one value: reads the front of the packet. -/
def readVal : List Int → Int × List Int
  | [] => (0, [])
  | x :: r => (x, r)

/-- `extractFromBytePacket` of one vector: reads the length, then that
many elements (metis_graph.cpp:234-237 and analogous). -/
def unpackVecZ (p : List Int) : List Int × List Int :=
  let (n, r) := readVal p
  (r.take n.toNat, r.drop n.toNat)

/-- `MetisGraph::unpack` (metis_graph.cpp:229-255): reads the fields in
the same order `pack` wrote them and overwrites every field of the
graph.  Returns the graph together with the unread remainder of the
packet. -/
def MetisGraph.unpack (p : List Int) : MetisGraph × List Int :=
  let (nv, r0) := readVal p
  let (ren, r1) := unpackVecZ r0
  let (xa, r2) := unpackVecZ r1
  let (an, r3) := unpackVecZ r2
  let (vw, r4) := unpackVecZ r3
  let (aw, r5) := unpackVecZ r4
  ({ num_vertices := nv.toNat
     renumber := ren.map Int.toNat
     xadj := xa.map Int.toNat
     adjncy := an.map Int.toNat
     vwgt := vw
     adjwgt := aw }, r5)

/-- `operator==(const MetisGraph &, const MetisGraph &)`
(metis_graph.cpp:258-262): equality over `num_vertices_`, `xadj_`,
`adjncy_`, `vwgt_`, `adjwgt_`, `renumber_`. -/
def MetisGraph.eqOp (l r : MetisGraph) : Bool :=
  l.num_vertices = r.num_vertices ∧ l.xadj = r.xadj ∧ l.adjncy = r.adjncy
    ∧ l.vwgt = r.vwgt ∧ l.adjwgt = r.adjwgt ∧ l.renumber = r.renumber

/-! ## Contraction cost (metis_graph.cpp:325-350)

`getContractionCost` works on IEEE doubles, but every quantity involved
is `pow(2.0, w)` for a small integer `w`, a product, or a quotient of
such, all of which doubles represent exactly in the ranges exercised
here; the arithmetic is therefore modelled over `ℚ`.  The two output
pointers are modelled as `Option` results (`none` = not written). -/

/-- `MetisGraph::getContractionCost` (metis_graph.cpp:325-350).  Returns
`(flops, intermediate_volume, diff_volume)`.  Note the source initializes
`double flops = 0.0;` (line 330) and returns it (line 349) without ever
assigning it the computed cost. -/
def MetisGraph.getContractionCost (g : MetisGraph) (u v : Nat) :
    ℚ × Option ℚ × Option ℚ :=
  let flops : ℚ := 0
  if u ≠ v ∧ u < g.num_vertices ∧ v < g.num_vertices then
    let v1 := min u v
    let v2 := max u v
    let edges1 := ((g.adjncy.zip g.adjwgt).drop (g.xadj.getD v1 0)).take
                    (g.xadj.getD (v1 + 1) 0 - g.xadj.getD v1 0)
    let edges2 := ((g.adjncy.zip g.adjwgt).drop (g.xadj.getD v2 0)).take
                    (g.xadj.getD (v2 + 1) 0 - g.xadj.getD v2 0)
    -- left_vol starts from the open volume of vertex1 and multiplies in
    -- all its edge volumes; contr_vol collects the edges shared with
    -- vertex2 (metis_graph.cpp:333-340):
    let left_vol := edges1.foldl (fun acc e => acc * (2 : ℚ) ^ (e.2 - 1))
                      ((2 : ℚ) ^ (g.vwgt.getD v1 0 - 1))
    let contr_vol := edges1.foldl
                      (fun acc e => if e.1 = v2 then acc * (2 : ℚ) ^ (e.2 - 1) else acc) 1
    let right_vol := edges2.foldl (fun acc e => acc * (2 : ℚ) ^ (e.2 - 1))
                      ((2 : ℚ) ^ (g.vwgt.getD v2 0 - 1))
    let inter_vol := left_vol * right_vol / (contr_vol * contr_vol)
    (flops, some inter_vol, some (inter_vol - (left_vol + right_vol)))
  else (flops, none, none)

/-! ## Primitive tensor operations (tensor_basic.hpp:65-82, tensor_op_*.cpp)

Each concrete operation class passes its fixed header to the base
`TensorOperation` constructor:
`TensorOperation(opcode, num_operands, num_scalars, mutation_bits, symm)`.
The fourth argument is written in the sources as a sum of  bit values
(`1+1*2+0*4`), the per-operand read/write bitset. -/

inductive TensorOpCode
  | NOOP | CREATE | DESTROY | TRANSFORM | SLICE | INSERT | ADD | CONTRACT
  | DECOMPOSE_SVD3 | DECOMPOSE_SVD2 | ORTHOGONALIZE_SVD | ORTHOGONALIZE_MGS
  | FETCH | UPLOAD | BROADCAST | ALLREDUCE
deriving Repr, DecidableEq

/-- The fixed header every `TensorOperation` subclass passes to the base
constructor. -/
structure TensorOperationHeader where
  opcode : TensorOpCode
  num_operands : Nat
  num_scalars : Nat
  mutation_bits : Nat
  symm_positions : List Nat
deriving Repr, DecidableEq

/-- `TensorOpCreate::TensorOpCreate()` (tensor_op_create.cpp:17-21):
`TensorOperation(CREATE,1,0,1,{0})`. -/
def TensorOpCreate : TensorOperationHeader := ⟨.CREATE, 1, 0, 1, [0]⟩

/-- `TensorOpTransform::TensorOpTransform()` (tensor_op_transform.cpp:17-20):
`TensorOperation(TRANSFORM,1,1,1,{0})`. -/
def TensorOpTransform : TensorOperationHeader := ⟨.TRANSFORM, 1, 1, 1, [0]⟩

/-- `TensorOpContract::TensorOpContract()` (tensor_op_contract.cpp:19-25):
`TensorOperation(CONTRACT,3,2,1+0*2+0*4,{0,1,2})`. -/
def TensorOpContract : TensorOperationHeader := ⟨.CONTRACT, 3, 2, 1 + 0 * 2 + 0 * 4, [0, 1, 2]⟩

/-- `TensorOpDecomposeSVD2::TensorOpDecomposeSVD2()`
(tensor_op_decompose_svd2.cpp:17-20):
`TensorOperation(DECOMPOSE_SVD2,3,0,1+1*2+0*4,{1,2,0})`. -/
def TensorOpDecomposeSVD2 : TensorOperationHeader :=
  ⟨.DECOMPOSE_SVD2, 3, 0, 1 + 1 * 2 + 0 * 4, [1, 2, 0]⟩

/-- The primitive operations whose constructors appear in the sources at
hand. -/
def primitiveOps : List TensorOperationHeader :=
  [TensorOpCreate, TensorOpTransform, TensorOpContract, TensorOpDecomposeSVD2]

/-- Modelled from the spec: the base-class decoding of the constructor's
fourth argument ("A per-op bitset encodes which operands are reads vs
writes"); bit `i` of `mutation_bits` marks operand `i` as written. -/
def writesOperand (op : TensorOperationHeader) (i : Nat) : Bool :=
  op.mutation_bits.testBit i

/-- `TensorOpContract::getFlopEstimate` (tensor_op_contract.cpp:38-47)
returns `sqrt(vol0*vol1*vol2)` over the three operand volumes when the
operation is fully set, else `0.0`.  To keep the arithmetic exact, the
estimate is represented by its square. -/
def contractFlopEstimateSq (isSet : Bool) (vol0 vol1 vol2 : Nat) : Nat :=
  if isSet then vol0 * vol1 * vol2 else 0

/-! ## Connected tensors (tensor_connected.cpp) -/

inductive LegDirection
  | UNDIRECT | INWARD | OUTWARD
deriving Repr, DecidableEq

/-- Modelled from the spec: `TensorLeg::reverseDirection` (the TensorLeg
implementation file is not among the sources at hand); per the spec,
conjugation "reverses every directed leg; undirected legs unchanged". -/
def LegDirection.reverseDirection : LegDirection → LegDirection
  | .UNDIRECT => .UNDIRECT
  | .INWARD => .OUTWARD
  | .OUTWARD => .INWARD

/-- A tensor leg: `(adjacent_vertex_id, adjacent_dimension_id, direction)`. -/
structure TensorLeg where
  tensor_id : Nat
  dimension_id : Nat
  direction : LegDirection
deriving Repr, DecidableEq

def TensorLeg.reverseDirection (l : TensorLeg) : TensorLeg :=
  { l with direction := l.direction.reverseDirection }

/-- The state of a `TensorConn` relevant to conjugation: its vertex id,
its legs and its conjugation flag (tensor_connected.cpp:16-22). -/
structure TensorConn where
  id : Nat
  legs : List TensorLeg
  conjugated : Bool
deriving Repr, DecidableEq

/-- `TensorConn::conjugate()` (tensor_connected.cpp:164-169): toggles the
conjugation flag unless the vertex is the output (`id_ != 0`), and
reverses the direction of every leg. -/
def TensorConn.conjugate (tc : TensorConn) : TensorConn :=
  { tc with
    conjugated := if tc.id ≠ 0 then !tc.conjugated else tc.conjugated
    legs := tc.legs.map TensorLeg.reverseDirection }

/-! ## Reconstructor (reconstructor.cpp) -/

/-- One sweep of the gradient loop computes
`max_grad_maxabs = max over environments of grad_maxabs`, starting from
`0.0` (reconstructor.cpp:145-156).  The max-abs norms delivered by
`computeMaxAbsSync` are abstracted as rationals. -/
def maxGradMaxabs (grads : List ℚ) : ℚ := grads.foldl max 0

/-- The gradient-descent loop of `TensorNetworkReconstructor::reconstruct`
(reconstructor.cpp:142-175), fuel-indexed.  `gradSeq i` lists the
gradient max-abs norms computed during sweep `i` (one per derivative
environment); the loop body runs, then sets
`converged = (max_grad_maxabs <= tolerance_)` (line 174).  The member
`max_iterations_` is in scope but the loop never reads it, which the
unused parameter mirrors.  Returns `some n` when the loop exits after `n`
sweeps within the given fuel, `none` otherwise. -/
def reconstructLoop (_max_iterations : Nat) (gradSeq : Nat → List ℚ) (tolerance : ℚ) :
    Nat → Nat → Option Nat
  | 0, _ => none
  | fuel + 1, iteration =>
    let m := maxGradMaxabs (gradSeq iteration)
    if m ≤ tolerance then some (iteration + 1)
    else reconstructLoop _max_iterations gradSeq tolerance fuel (iteration + 1)

/-- The fidelity computed at the end of a successful
`TensorNetworkReconstructor::reconstruct` run (reconstructor.cpp:184-194):
`overlap_abs` is the `computeNorm1` result for the evaluated overlap
scalar (hence nonnegative: the modulus of the overlap), and
`fidelity_ = overlap_abs * overlap_abs`. -/
def fidelityOf (overlap_abs : ℚ) : ℚ := overlap_abs * overlap_abs

/-- The reconstructor state read by `getSolution`; `approximant` stands
for the stored `approximant_` expansion pointer. -/
structure ReconstructorState (α : Type) where
  residual_norm2 : ℚ
  fidelity : ℚ
  approximant : α

/-- `TensorNetworkReconstructor::getSolution` (reconstructor.cpp:52-58):
returns a null expansion when `fidelity_ == 0.0`; otherwise writes the
stored residual norm and fidelity through the output pointers and
returns the approximant. -/
def getSolution {α : Type} (st : ReconstructorState α) : Option (ℚ × ℚ × α) :=
  if st.fidelity = 0 then none
  else some (st.residual_norm2, st.fidelity, st.approximant)

/-! ## MPI communicator proxy (mpi_proxy.cpp:19-38) -/

/-- The state examined by the `MPICommProxy` destructor: the
`destroy_on_free_` bit, whether the proxy is empty, the shared-pointer
reference count, and whether the held communicator compares
`MPI_IDENT` to `MPI_COMM_WORLD` or to `MPI_COMM_SELF`. -/
structure MPICommProxyState where
  destroy_on_free : Bool
  is_empty : Bool
  use_count : Nat
  ident_world : Bool
  ident_self : Bool
deriving Repr, DecidableEq

/-- `MPICommProxy::~MPICommProxy()` (mpi_proxy.cpp:19-38): whether the
destructor calls `MPI_Comm_free`, following the nested conditions of the
source. -/
def destructorFrees (s : MPICommProxyState) : Bool :=
  if s.destroy_on_free then
    if !s.is_empty then
      if s.use_count = 1 then
        if !s.ident_world then
          if !s.ident_self then true else false
        else false
      else false
    else false
  else false

/-! ## Invariant predicates and concrete inputs -/

/-- Executable check that a list of vertex ids is nondecreasing. -/
def sortedLe : List Nat → Bool
  | [] => true
  | [_] => true
  | a :: b :: l => a ≤ b && sortedLe (b :: l)

/-- The size invariants asserted by the sources after every edit
(metis_graph.cpp:442-443 and spec §4.3): `xadj_.size() == num_vertices_+1`,
`adjncy_.size() == adjwgt_.size()`, `adjncy_.size() == xadj_[num_vertices_]`. -/
def MetisGraph.sizesOk (g : MetisGraph) : Prop :=
  g.xadj.length = g.num_vertices + 1 ∧
  g.adjncy.length = g.adjwgt.length ∧
  g.adjncy.length = g.xadj.getD g.num_vertices 0

instance (g : MetisGraph) : Decidable g.sizesOk :=
  inferInstanceAs (Decidable (g.xadj.length = g.num_vertices + 1 ∧
    g.adjncy.length = g.adjwgt.length ∧
    g.adjncy.length = g.xadj.getD g.num_vertices 0))

/-- The adjacency list of vertex `v`: the CSR segment
`adjncy_[xadj_[v] .. xadj_[v+1])`. -/
def MetisGraph.blockOf (g : MetisGraph) (v : Nat) : List Nat :=
  (g.adjncy.drop (g.xadj.getD v 0)).take (g.xadj.getD (v + 1) 0 - g.xadj.getD v 0)

/-- "Adjacency lists sorted": every vertex's adjacency list is
nondecreasing in the adjacent vertex id. -/
def MetisGraph.blocksSorted (g : MetisGraph) : Prop :=
  ∀ v, v < g.num_vertices → sortedLe (g.blockOf v) = true

instance (g : MetisGraph) : Decidable g.blocksSorted :=
  inferInstanceAs (Decidable (∀ v, v < g.num_vertices → sortedLe (g.blockOf v) = true))

/-- Well-formedness of the CSR representation: the size invariants, the
vertex-weight count, and monotone `xadj_` offsets. -/
def MetisGraph.WF (g : MetisGraph) : Prop :=
  g.xadj.length = g.num_vertices + 1 ∧
  g.vwgt.length = g.num_vertices ∧
  g.adjncy.length = g.adjwgt.length ∧
  g.adjncy.length = g.xadj.getD g.num_vertices 0 ∧
  sortedLe g.xadj = true

instance (g : MetisGraph) : Decidable g.WF :=
  inferInstanceAs (Decidable (g.xadj.length = g.num_vertices + 1 ∧
    g.vwgt.length = g.num_vertices ∧
    g.adjncy.length = g.adjwgt.length ∧
    g.adjncy.length = g.xadj.getD g.num_vertices 0 ∧
    sortedLe g.xadj = true))

/-- The conserved quantity of spec §8 invariant 3:
`sum(vwgt) + sum(adjwgt)`. -/
def MetisGraph.sumWeights (g : MetisGraph) : Int := g.vwgt.sum + g.adjwgt.sum

/-- The FMA flop estimate of the spec's cost model (§4.2): the product of
the two operand volumes divided by the product of the shared-leg extents
(the linear-domain form of `O_u + O_v - C_uv`).  Stated from the spec for
comparison with `MetisGraph.getContractionCost`. -/
def specFMAFlops (left_vol right_vol contr_vol : ℚ) : ℚ :=
  left_vol * right_vol / contr_vol

/-- Three-vertex path `0 -[5]- 1 -[3]- 2` with vertex weights `2, 4, 7`
(a well-formed symmetric METIS graph, as the constructor from a
`TensorNetwork` would produce). -/
def exG1 : MetisGraph :=
  ((MetisGraph.empty.appendVertex [1] [5] 2).appendVertex [0, 2] [5, 3] 4).appendVertex
    [1] [3] 7

/-- Two vertices joined by one edge of weight `4` (log-extent 3 plus the
+1 offset), vertex weights `2` (log open volume 1 plus the offset). -/
def exG2 : MetisGraph :=
  (MetisGraph.empty.appendVertex [1] [4] 2).appendVertex [0] [4] 2

/-- Four-vertex star: center `3` adjacent to `0`, `1`, `2`, every edge
weight `2`, every vertex weight `1`. -/
def exStar : MetisGraph :=
  (((MetisGraph.empty.appendVertex [3] [2] 1).appendVertex [3] [2] 1).appendVertex
    [3] [2] 1).appendVertex [0, 1, 2] [2, 2, 2] 1

/-- An input vertex (id 1) with one inward leg, not conjugated. -/
def exConn : TensorConn :=
  { id := 1, legs := [{ tensor_id := 0, dimension_id := 0, direction := .INWARD }],
    conjugated := false }

/-- A gradient oracle whose single optimizable tensor always has gradient
max-abs norm `1`. -/
def gradAlwaysOne : Nat → List ℚ := fun _ => [1]

/-! # Theorems -/

/-! ## General list lemmas -/

theorem sortedLe_iff_chain' (l : List Nat) :
    sortedLe l = true ↔ List.Chain' (· ≤ ·) l := by
  induction l with
  | nil => simp [sortedLe]
  | cons a t ih =>
    cases t with
    | nil => simp [sortedLe]
    | cons b r =>
      rw [sortedLe, Bool.and_eq_true, decide_eq_true_eq, List.chain'_cons, ih]

theorem getD_drop' {α : Type} (l : List α) (i j : Nat) (d : α) (h : i + j < l.length) :
    (l.drop i).getD j d = l.getD (i + j) d := by
  rw [List.getD_eq_getElem _ _ (by simp; omega), List.getElem_drop,
    List.getD_eq_getElem _ _ h]

theorem getD_take' {α : Type} (l : List α) (n i : Nat) (d : α) (h : i < n) :
    (l.take n).getD i d = l.getD i d := by
  by_cases hi : i < l.length
  · rw [List.getD_eq_getElem _ _ (by simp; omega), List.getElem_take,
      List.getD_eq_getElem _ _ hi]
  · rw [List.getD_eq_default _ _ (by simp; omega), List.getD_eq_default _ _ (by omega)]

theorem getD_mapIdx {α : Type} (f : Nat → α → α) (l : List α) (i : Nat) (d : α)
    (h : i < l.length) :
    (l.mapIdx f).getD i d = f i (l.getD i d) := by
  rw [List.getD_eq_getElem _ _ (by simpa using h), List.getElem_mapIdx,
    List.getD_eq_getElem _ _ h]

theorem zip_self_map (l : List Nat) :
    l.zip (l.map Int.ofNat) = l.map (fun a => (a, Int.ofNat a)) := by
  induction l with
  | nil => rfl
  | cons a t ih => simp [ih]

theorem toNat_cast_list (v : List Nat) : (v.map Int.ofNat).map Int.toNat = v := by
  induction v with
  | nil => rfl
  | cons a t ih => simp only [List.map_cons, ih]; rfl

/-! ## Lemmas about the two-way merge loop -/

theorem length_mergeSortedPairsFuel (f : Nat) (l1 l2 : List (Nat × Int)) :
    (mergeSortedPairsFuel f l1 l2).length = l1.length + l2.length := by
  induction f generalizing l1 l2 with
  | zero => simp [mergeSortedPairsFuel]
  | succ n ih =>
    cases l1 with
    | nil => simp [mergeSortedPairsFuel]
    | cons a r1 =>
      cases l2 with
      | nil => simp [mergeSortedPairsFuel]
      | cons b r2 =>
        rw [mergeSortedPairsFuel]
        split_ifs <;> simp [ih] <;> omega

theorem length_mergeSortedPairs (l1 l2 : List (Nat × Int)) :
    (mergeSortedPairs l1 l2).length = l1.length + l2.length :=
  length_mergeSortedPairsFuel _ l1 l2

theorem head?_mergeSortedPairsFuel {f : Nat} {l1 l2 : List (Nat × Int)} {x : Nat × Int}
    (h : (mergeSortedPairsFuel f l1 l2).head? = some x) :
    l1.head? = some x ∨ l2.head? = some x := by
  cases f with
  | zero =>
    rw [mergeSortedPairsFuel, List.head?_append] at h
    cases l1 with
    | nil => right; simpa using h
    | cons a r1 => left; simpa using h
  | succ n =>
    cases l1 with
    | nil => right; simpa [mergeSortedPairsFuel] using h
    | cons a r1 =>
      cases l2 with
      | nil => left; simpa [mergeSortedPairsFuel] using h
      | cons b r2 =>
        rw [mergeSortedPairsFuel] at h
        split_ifs at h with hle
        · left; simpa using h
        · right; simpa using h

theorem chain'_mergeSortedPairsFuel {f : Nat} {l1 l2 : List (Nat × Int)}
    (hf : l1.length + l2.length ≤ f)
    (h1 : List.Chain' (fun p q => p.1 ≤ q.1) l1)
    (h2 : List.Chain' (fun p q => p.1 ≤ q.1) l2) :
    List.Chain' (fun p q => p.1 ≤ q.1) (mergeSortedPairsFuel f l1 l2) := by
  induction f generalizing l1 l2 with
  | zero =>
    have e1 : l1 = [] := List.eq_nil_of_length_eq_zero (by omega)
    have e2 : l2 = [] := List.eq_nil_of_length_eq_zero (by omega)
    subst e1; subst e2; simp [mergeSortedPairsFuel]
  | succ n ih =>
    cases l1 with
    | nil => simpa [mergeSortedPairsFuel] using h2
    | cons a r1 =>
      cases l2 with
      | nil => simpa [mergeSortedPairsFuel] using h1
      | cons b r2 =>
        rw [mergeSortedPairsFuel]
        rw [List.chain'_cons'] at h1 h2
        split_ifs with hle
        · rw [List.chain'_cons']
          refine ⟨?_, ih (by simp at hf ⊢; omega) h1.2 (List.chain'_cons'.mpr h2)⟩
          intro y hy
          rcases head?_mergeSortedPairsFuel hy with hh | hh
          · exact h1.1 y hh
          · simp at hh; subst hh; exact hle
        · rw [List.chain'_cons']
          refine ⟨?_, ih (by simp at hf ⊢; omega) (List.chain'_cons'.mpr h1) h2.2⟩
          intro y hy
          rcases head?_mergeSortedPairsFuel hy with hh | hh
          · simp at hh; subst hh; omega
          · exact h2.1 y hh

theorem chain'_mergeSortedPairs {l1 l2 : List (Nat × Int)}
    (h1 : List.Chain' (fun p q => p.1 ≤ q.1) l1)
    (h2 : List.Chain' (fun p q => p.1 ≤ q.1) l2) :
    List.Chain' (fun p q => p.1 ≤ q.1) (mergeSortedPairs l1 l2) :=
  chain'_mergeSortedPairsFuel le_rfl h1 h2

/-! ## Lemmas about the deletion/combination loop -/

theorem delLoopRevAux_ne_nil (v1 v2 : Nat) (x : Nat × Int) (l : List (Nat × Int)) :
    delLoopRevAux v1 v2 x l ≠ [] := by
  induction l generalizing x with
  | nil => simp [delLoopRevAux]
  | cons y rest ih =>
    rw [delLoopRevAux]
    split_ifs <;> simp [ih]

theorem length_delLoopRevAux_le (v1 v2 : Nat) (x : Nat × Int) (l : List (Nat × Int)) :
    (delLoopRevAux v1 v2 x l).length ≤ l.length + 1 := by
  induction l generalizing x with
  | nil => simp [delLoopRevAux]
  | cons y rest ih =>
    rw [delLoopRevAux]
    split_ifs with h1 h2
    · exact le_trans (ih y) (by simp)
    · exact le_trans (ih _) (by simp)
    · simpa using ih y

theorem length_delLoopRev_le (v1 v2 : Nat) (l : List (Nat × Int)) :
    (delLoopRev v1 v2 l).length ≤ l.length := by
  cases l with
  | nil => simp [delLoopRev]
  | cons x rest => simpa [delLoopRev] using length_delLoopRevAux_le v1 v2 x rest

theorem map_fst_delLoopRevAux_sublist (v1 v2 : Nat) (x : Nat × Int) (l : List (Nat × Int)) :
    ((delLoopRevAux v1 v2 x l).map Prod.fst).Sublist ((x :: l).map Prod.fst) := by
  induction l generalizing x with
  | nil => simp [delLoopRevAux]
  | cons y rest ih =>
    rw [delLoopRevAux]
    split_ifs with h1 h2
    · exact (ih y).trans (by simp)
    · have := ih (y.1, y.2 + x.2 - 1)
      simp only [List.map_cons] at this ⊢
      exact this.trans ((List.Sublist.refl _).cons _)
    · simp only [List.map_cons] at ih ⊢
      exact (ih y).cons₂ _

theorem delLoopRevAux_dropLast_ne (v1 v2 : Nat) (x : Nat × Int) (l : List (Nat × Int)) :
    ∀ p ∈ (delLoopRevAux v1 v2 x l).dropLast, p.1 ≠ v1 ∧ p.1 ≠ v2 := by
  induction l generalizing x with
  | nil => simp [delLoopRevAux]
  | cons y rest ih =>
    rw [delLoopRevAux]
    split_ifs with h1 h2
    · exact ih y
    · exact ih _
    · rw [List.dropLast_cons_of_ne_nil (delLoopRevAux_ne_nil v1 v2 y rest)]
      intro p hp
      rcases List.mem_cons.mp hp with rfl | hp
      · push_neg at h1; exact h1
      · exact ih y p hp

theorem map_fst_delLoopRev_sublist (v1 v2 : Nat) (l : List (Nat × Int)) :
    ((delLoopRev v1 v2 l).map Prod.fst).Sublist (l.map Prod.fst) := by
  cases l with
  | nil => simp [delLoopRev]
  | cons x rest => exact map_fst_delLoopRevAux_sublist v1 v2 x rest

theorem delLoopRev_dropLast_ne (v1 v2 : Nat) (l : List (Nat × Int)) :
    ∀ p ∈ (delLoopRev v1 v2 l).dropLast, p.1 ≠ v1 ∧ p.1 ≠ v2 := by
  cases l with
  | nil => simp [delLoopRev]
  | cons x rest => exact delLoopRevAux_dropLast_ne v1 v2 x rest

theorem chain'_map_rewrite {v1 v2 : Nat} (h12 : v1 < v2) (l : List Nat)
    (hch : List.Chain' (· ≤ ·) l)
    (htail : ∀ a ∈ l.tail, a ≠ v1 ∧ a ≠ v2) :
    List.Chain' (· ≤ ·) (l.map (fun a => if a = v2 then v1 else a)) := by
  cases l with
  | nil => simp
  | cons a t =>
    have htid : t.map (fun a => if a = v2 then v1 else a) = t := by
      have h := @List.map_congr_left _ t _ (fun a => if a = v2 then v1 else a) id
        (fun x hx => if_neg (htail x hx).2)
      rw [h, List.map_id]
    rw [List.map_cons, htid]
    rw [List.chain'_cons'] at hch ⊢
    refine ⟨?_, hch.2⟩
    intro y hy
    have hay := hch.1 y hy
    by_cases ha : a = v2
    · rw [if_pos ha]; omega
    · rw [if_neg ha]; exact hay

/-! ## Lemmas about the block move -/

theorem length_moveSegment {α : Type} {e1 x2 e2 : Nat} {l : List α}
    (h1 : e1 ≤ x2) (h2 : x2 ≤ e2) (h3 : e2 ≤ l.length) :
    (moveSegment e1 x2 e2 l).length = l.length := by
  simp [moveSegment]
  omega

theorem moveSegment_block {α : Type} {x1 e1 x2 e2 : Nat} {l : List α}
    (hx1 : x1 ≤ e1) (h1 : e1 ≤ x2) (h2 : x2 ≤ e2) (h3 : e2 ≤ l.length) :
    ((moveSegment e1 x2 e2 l).drop x1).take ((e1 - x1) + (e2 - x2)) =
      (l.drop x1).take (e1 - x1) ++ (l.drop x2).take (e2 - x2) := by
  have hs : l.take e1 = l.take x1 ++ (l.drop x1).take (e1 - x1) := by
    rw [← List.take_add]
    congr 1
    omega
  have hA : (l.take x1).length = x1 := by rw [List.length_take]; omega
  have hB1 : ((l.drop x1).take (e1 - x1)).length = e1 - x1 := by
    rw [List.length_take, List.length_drop]; omega
  have hB2 : ((l.drop x2).take (e2 - x2)).length = e2 - x2 := by
    rw [List.length_take, List.length_drop]; omega
  rw [moveSegment, hs, List.append_assoc, List.append_assoc, List.append_assoc,
    List.drop_left' hA, List.take_append_eq_append_take, hB1,
    show (e1 - x1) + (e2 - x2) - (e1 - x1) = e2 - x2 from by omega,
    List.take_take, min_eq_right (by omega : e1 - x1 ≤ (e1 - x1) + (e2 - x2)),
    List.take_append_eq_append_take, hB2, Nat.sub_self, List.take_zero, List.append_nil,
    List.take_take, Nat.min_self]

/-! ## Structural invariants of the merge body -/

theorem mergeBody_sizes (g : MetisGraph) (v1 v2 : Nat) (hWF : g.WF)
    (h12 : v1 < v2) (h2 : v2 < g.num_vertices) :
    (g.mergeBody v1 v2).sizesOk ∧
    (g.mergeBody v1 v2).vwgt.length = (g.mergeBody v1 v2).num_vertices := by
  obtain ⟨hxlen, hvlen, hawlen, hT, hsortx⟩ := hWF
  have hpair : List.Pairwise (· ≤ ·) g.xadj :=
    List.chain'_iff_pairwise.mp ((sortedLe_iff_chain' _).mp hsortx)
  have hmono : ∀ i j, i ≤ j → j < g.xadj.length → g.xadj.getD i 0 ≤ g.xadj.getD j 0 := by
    intro i j hij hj
    rcases Nat.eq_or_lt_of_le hij with rfl | hlt
    · exact le_rfl
    · rw [List.getD_eq_getElem _ _ (lt_trans hlt hj), List.getD_eq_getElem _ _ hj]
      exact List.pairwise_iff_getElem.mp hpair i j (lt_trans hlt hj) hj hlt
  set nv := g.num_vertices with hnv
  set L := g.adjncy.length with hL
  set x1 := g.xadj.getD v1 0 with hx1
  set e1 := g.xadj.getD (v1 + 1) 0 with he1
  set x2 := g.xadj.getD v2 0 with hx2
  set e2 := g.xadj.getD (v2 + 1) 0 with he2
  have hx1e1 : x1 ≤ e1 := hmono v1 (v1 + 1) (by omega) (by omega)
  have he1x2 : e1 ≤ x2 := hmono (v1 + 1) v2 (by omega) (by omega)
  have hx2e2 : x2 ≤ e2 := hmono v2 (v2 + 1) (by omega) (by omega)
  have he2T : e2 ≤ L := by
    rw [hT]; exact hmono (v2 + 1) nv (by omega) (by omega)
  dsimp only [MetisGraph.mergeBody, MetisGraph.sizesOk]
  set n1 := e1 - x1 with hn1
  set n2 := e2 - x2 with hn2
  have hxnn : x1 + n1 + n2 ≤ L := by omega
  set an1 := moveSegment e1 x2 e2 g.adjncy with han1
  set aw1 := moveSegment e1 x2 e2 g.adjwgt with haw1
  have han1len : an1.length = L := length_moveSegment he1x2 hx2e2 he2T
  have haw1len : aw1.length = L := by
    rw [haw1, length_moveSegment he1x2 hx2e2 (by omega), hawlen]
  have hblockIds : ((an1.drop x1).take (n1 + n2)).length = n1 + n2 := by
    simp [han1len]; omega
  set blockIds := (an1.drop x1).take (n1 + n2) with hbIds
  set merged := mergeSortedPairs ((blockIds.take n1).zip ((blockIds.take n1).map Int.ofNat))
    ((blockIds.drop n1).zip ((blockIds.drop n1).map Int.ofNat)) with hmg
  have hmglen : merged.length = n1 + n2 := by
    rw [hmg, length_mergeSortedPairs]
    simp [hblockIds] <;> omega
  set blk := (delLoopRev v1 v2 merged.reverse).reverse with hblk
  have hblklen : blk.length ≤ n1 + n2 := by
    rw [hblk, List.length_reverse]
    calc (delLoopRev v1 v2 merged.reverse).length ≤ merged.reverse.length :=
          length_delLoopRev_le _ _ _
      _ = n1 + n2 := by rw [List.length_reverse, hmglen]
  set an2 := an1.take x1 ++ blk.map Prod.fst ++ an1.drop (x1 + n1 + n2) with han2
  set aw2 := aw1.take x1 ++ blk.map Prod.snd ++ aw1.drop (x1 + n1 + n2) with haw2
  have han2len : an2.length = x1 + blk.length + (L - (x1 + n1 + n2)) := by
    simp [han2, han1len]
    omega
  have haw2len : aw2.length = an2.length := by
    simp [haw2, han2, han1len, haw1len]
  set del1 := merged.length - blk.length with hdel1
  set an3 := (if an2.get? x1 = some v1 then an2.eraseIdx x1 else an2) with han3
  set aw3 := (if an2.get? x1 = some v1 then aw2.eraseIdx x1 else aw2) with haw3
  set numDel := (if an2.get? x1 = some v1 then del1 + 1 else del1) with hnumDel
  set xa1 := g.xadj.mapIdx (fun vert w => if v1 < vert ∧ vert ≤ v2 then w + n2 else w) with hxa1
  set xa2 := xa1.mapIdx (fun vert w => if v1 < vert then w - numDel else w) with hxa2
  have hxa1len : xa1.length = nv + 1 := by
    rw [hxa1, List.length_mapIdx, hxlen]
  have hxa2len : xa2.length = nv + 1 := by
    rw [hxa2, List.length_mapIdx, hxa1len]
  have hxa2nv : xa2.getD nv 0 = L - numDel := by
    rw [hxa2, getD_mapIdx _ _ _ _ (by omega), if_pos (show v1 < nv by omega),
      hxa1, getD_mapIdx _ _ _ _ (by omega),
      if_neg (show ¬ (v1 < nv ∧ nv ≤ v2) by omega), ← hT]
  have hxa3 : (xa2.eraseIdx v2).getD (nv - 1) 0 = xa2.getD nv 0 := by
    have htk : (xa2.take v2).length = v2 := by
      rw [List.length_take, hxa2len]; omega
    rw [List.eraseIdx_eq_take_drop_succ,
      List.getD_append_right _ _ _ _ (by rw [htk]; omega), htk,
      getD_drop' _ _ _ _ (by rw [hxa2len]; omega),
      show v2 + 1 + ((nv - 1) - v2) = nv from by omega]
  have hxa3len : (xa2.eraseIdx v2).length = nv := by
    rw [List.length_eraseIdx, if_pos (by omega), hxa2len]
    omega
  have hvw : ((g.vwgt.set v1 (g.vwgt.getD v1 0 + (g.vwgt.getD v2 0 - 1))).eraseIdx v2).length
      = nv - 1 := by
    rw [List.length_eraseIdx, if_pos (by rw [List.length_set, hvlen]; omega),
      List.length_set, hvlen]
  refine ⟨⟨by rw [hxa3len]; omega, ?_, ?_⟩, by rw [hvw]⟩
  · by_cases hh : an2.get? x1 = some v1
    · have hx1lt : x1 < an2.length := by
        rcases List.get?_eq_some.mp hh with ⟨h, _⟩
        exact h
      rw [han3, haw3, if_pos hh, if_pos hh, List.length_map,
        List.length_eraseIdx, if_pos hx1lt, List.length_eraseIdx, if_pos (by omega), haw2len]
    · rw [han3, haw3, if_neg hh, if_neg hh, List.length_map, haw2len]
  · rw [hxa3, hxa2nv, List.length_map]
    by_cases hh : an2.get? x1 = some v1
    · have hx1lt : x1 < an2.length := by
        rcases List.get?_eq_some.mp hh with ⟨h, _⟩
        exact h
      have e3 : an3 = an2.eraseIdx x1 := by rw [han3, if_pos hh]
      have en : numDel = del1 + 1 := by rw [hnumDel, if_pos hh]
      rw [e3, List.length_eraseIdx, if_pos hx1lt, han2len, en]
      omega
    · have e3 : an3 = an2 := by rw [han3, if_neg hh]
      have en : numDel = del1 := by rw [hnumDel, if_neg hh]
      rw [e3, han2len, en]
      omega

theorem mergeBody_block_sorted (g : MetisGraph) (v1 v2 : Nat) (hWF : g.WF)
    (hbs : g.blocksSorted) (h12 : v1 < v2) (h2 : v2 < g.num_vertices) :
    sortedLe ((g.mergeBody v1 v2).blockOf v1) = true := by
  obtain ⟨hxlen, hvlen, hawlen, hT, hsortx⟩ := hWF
  have hpair : List.Pairwise (· ≤ ·) g.xadj :=
    List.chain'_iff_pairwise.mp ((sortedLe_iff_chain' _).mp hsortx)
  have hmono : ∀ i j, i ≤ j → j < g.xadj.length → g.xadj.getD i 0 ≤ g.xadj.getD j 0 := by
    intro i j hij hj
    rcases Nat.eq_or_lt_of_le hij with rfl | hlt
    · exact le_rfl
    · rw [List.getD_eq_getElem _ _ (lt_trans hlt hj), List.getD_eq_getElem _ _ hj]
      exact List.pairwise_iff_getElem.mp hpair i j (lt_trans hlt hj) hj hlt
  have hB1c : List.Chain' (· ≤ ·) (g.blockOf v1) :=
    (sortedLe_iff_chain' _).mp (hbs v1 (by omega))
  have hB2c : List.Chain' (· ≤ ·) (g.blockOf v2) :=
    (sortedLe_iff_chain' _).mp (hbs v2 h2)
  rw [MetisGraph.blockOf] at hB1c hB2c
  set nv := g.num_vertices with hnv
  set L := g.adjncy.length with hL
  set x1 := g.xadj.getD v1 0 with hx1
  set e1 := g.xadj.getD (v1 + 1) 0 with he1
  set x2 := g.xadj.getD v2 0 with hx2
  set e2 := g.xadj.getD (v2 + 1) 0 with he2
  have hx1e1 : x1 ≤ e1 := hmono v1 (v1 + 1) (by omega) (by omega)
  have he1x2 : e1 ≤ x2 := hmono (v1 + 1) v2 (by omega) (by omega)
  have hx2e2 : x2 ≤ e2 := hmono v2 (v2 + 1) (by omega) (by omega)
  have he2T : e2 ≤ L := by
    rw [hT]; exact hmono (v2 + 1) nv (by omega) (by omega)
  dsimp only [MetisGraph.mergeBody, MetisGraph.blockOf]
  set n1 := e1 - x1 with hn1
  set n2 := e2 - x2 with hn2
  have hxnn : x1 + n1 + n2 ≤ L := by omega
  set an1 := moveSegment e1 x2 e2 g.adjncy with han1
  have han1len : an1.length = L := length_moveSegment he1x2 hx2e2 he2T
  set blockIds := (an1.drop x1).take (n1 + n2) with hbIds
  have hbid : blockIds = (g.adjncy.drop x1).take n1 ++ (g.adjncy.drop x2).take n2 := by
    rw [hbIds, han1, hn1, hn2, moveSegment_block hx1e1 he1x2 hx2e2 he2T]
  have hB1len : ((g.adjncy.drop x1).take n1).length = n1 := by
    rw [List.length_take, List.length_drop]; omega
  have he1b : blockIds.take n1 = (g.adjncy.drop x1).take n1 := by
    rw [hbid, List.take_left' hB1len]
  have he2b : blockIds.drop n1 = (g.adjncy.drop x2).take n2 := by
    rw [hbid, List.drop_left' hB1len]
  set merged := mergeSortedPairs ((blockIds.take n1).zip ((blockIds.take n1).map Int.ofNat))
    ((blockIds.drop n1).zip ((blockIds.drop n1).map Int.ofNat)) with hmg
  have hmglen : merged.length = n1 + n2 := by
    rw [hmg, length_mergeSortedPairs, he1b, he2b]
    simp only [List.length_zip, List.length_map, List.length_take, List.length_drop]
    omega
  have hmgch : List.Chain' (fun p q => p.1 ≤ q.1) merged := by
    rw [hmg]
    refine chain'_mergeSortedPairs ?_ ?_
    · rw [he1b, zip_self_map]
      exact (List.chain'_map _).mpr hB1c
    · rw [he2b, zip_self_map]
      exact (List.chain'_map _).mpr hB2c
  set blk := (delLoopRev v1 v2 merged.reverse).reverse with hblk
  have hblklen : blk.length ≤ n1 + n2 := by
    rw [hblk, List.length_reverse]
    calc (delLoopRev v1 v2 merged.reverse).length ≤ merged.reverse.length :=
          length_delLoopRev_le _ _ _
      _ = n1 + n2 := by rw [List.length_reverse, hmglen]
  have hblkfst : List.Chain' (· ≤ ·) (blk.map Prod.fst) := by
    have hmfst : List.Chain' (· ≤ ·) (merged.map Prod.fst) :=
      (List.chain'_map _).mpr hmgch
    have hrev : List.Chain' (· ≥ ·) ((merged.map Prod.fst).reverse) :=
      List.chain'_reverse.mpr hmfst
    have hout : List.Chain' (· ≥ ·) ((delLoopRev v1 v2 merged.reverse).map Prod.fst) := by
      refine hrev.sublist ?_
      have := map_fst_delLoopRev_sublist v1 v2 merged.reverse
      rwa [List.map_reverse] at this
    have hfold : blk.map Prod.fst = ((delLoopRev v1 v2 merged.reverse).map Prod.fst).reverse := by
      rw [hblk, List.map_reverse]
    rw [hfold]
    exact List.chain'_reverse.mpr hout
  have htailne : ∀ a ∈ (blk.map Prod.fst).tail, a ≠ v1 ∧ a ≠ v2 := by
    intro a ha
    rw [← List.map_tail] at ha
    rcases List.mem_map.mp ha with ⟨p, hp, rfl⟩
    rw [hblk, List.tail_reverse, List.mem_reverse] at hp
    exact delLoopRev_dropLast_ne v1 v2 merged.reverse p hp
  set an2 := an1.take x1 ++ blk.map Prod.fst ++ an1.drop (x1 + n1 + n2) with han2
  have han2len : an2.length = x1 + blk.length + (L - (x1 + n1 + n2)) := by
    simp [han2, han1len]
    omega
  have htkx1 : (an1.take x1).length = x1 := by
    rw [List.length_take, han1len]; omega
  have hdropx1 : an2.drop x1 = blk.map Prod.fst ++ an1.drop (x1 + n1 + n2) := by
    rw [han2, List.append_assoc, List.drop_left' htkx1]
  set del1 := merged.length - blk.length with hdel1
  set an3 := (if an2.get? x1 = some v1 then an2.eraseIdx x1 else an2) with han3
  set numDel := (if an2.get? x1 = some v1 then del1 + 1 else del1) with hnumDel
  set xa1 := g.xadj.mapIdx (fun vert w => if v1 < vert ∧ vert ≤ v2 then w + n2 else w) with hxa1
  set xa2 := xa1.mapIdx (fun vert w => if v1 < vert then w - numDel else w) with hxa2
  have hxa1len : xa1.length = nv + 1 := by
    rw [hxa1, List.length_mapIdx, hxlen]
  have hxa2len : xa2.length = nv + 1 := by
    rw [hxa2, List.length_mapIdx, hxa1len]
  have htkv2 : (xa2.take v2).length = v2 := by
    rw [List.length_take, hxa2len]; omega
  have hq1 : (xa2.eraseIdx v2).getD v1 0 = x1 := by
    rw [List.eraseIdx_eq_take_drop_succ,
      List.getD_append _ _ _ _ (by rw [htkv2]; omega),
      getD_take' _ _ _ _ h12, hxa2,
      getD_mapIdx _ _ _ _ (by omega), if_neg (by omega), hxa1,
      getD_mapIdx _ _ _ _ (by omega), if_neg (by omega)]
  have hq2 : (xa2.eraseIdx v2).getD (v1 + 1) 0 = x1 + n1 + n2 - numDel := by
    by_cases hv : v1 + 1 < v2
    · rw [List.eraseIdx_eq_take_drop_succ,
        List.getD_append _ _ _ _ (by rw [htkv2]; omega),
        getD_take' _ _ _ _ hv, hxa2,
        getD_mapIdx _ _ _ _ (by omega), if_pos (by omega), hxa1,
        getD_mapIdx _ _ _ _ (by omega), if_pos ⟨by omega, by omega⟩, ← he1]
      omega
    · have hveq : v2 = v1 + 1 := by omega
      have hx2e1 : x2 = e1 := by rw [hx2, he1, hveq]
      rw [List.eraseIdx_eq_take_drop_succ,
        List.getD_append_right _ _ _ _ (by rw [htkv2]; omega), htkv2,
        getD_drop' _ _ _ _ (by rw [hxa2len]; omega),
        show v2 + 1 + (v1 + 1 - v2) = v2 + 1 from by omega, hxa2,
        getD_mapIdx _ _ _ _ (by omega), if_pos (by omega), hxa1,
        getD_mapIdx _ _ _ _ (by omega), if_neg (by omega), ← he2]
      omega
  rw [hq1, hq2]
  by_cases hh : an2.get? x1 = some v1
  · have hx1lt : x1 < an2.length := by
      rcases List.get?_eq_some.mp hh with ⟨h, _⟩
      exact h
    have e3 : an3 = an2.eraseIdx x1 := by rw [han3, if_pos hh]
    have en : numDel = del1 + 1 := by rw [hnumDel, if_pos hh]
    rcases hbc : blk.map Prod.fst with _ | ⟨b0, bt⟩
    · have hblk0 : blk.length = 0 := by
        have := congrArg List.length hbc
        simpa using this
      rw [show x1 + n1 + n2 - numDel - x1 = 0 from by omega, List.take_zero]
      rfl
    · have hbtlen : bt.length + 1 = blk.length := by
        have := congrArg List.length hbc
        simpa using this.symm
      have hcnt : x1 + n1 + n2 - numDel - x1 = bt.length := by omega
      have hd3 : (an2.eraseIdx x1).drop x1 = bt ++ an1.drop (x1 + n1 + n2) := by
        rw [List.eraseIdx_eq_take_drop_succ,
          List.drop_left' (by rw [List.length_take]; omega)]
        have hstep : an2.drop (x1 + 1) = (an2.drop x1).drop 1 := by
          rw [List.drop_drop]
        rw [hstep, hdropx1, hbc]
        rfl
      rw [hcnt, e3, ← List.map_drop, hd3, List.map_append,
        List.take_left' (by rw [List.length_map])]
      refine (sortedLe_iff_chain' _).mpr ?_
      have hbt_tail : bt = (blk.map Prod.fst).tail := by rw [hbc]; rfl
      have hne_bt : ∀ a ∈ bt, a ≠ v1 ∧ a ≠ v2 := by
        intro a ha
        refine htailne a ?_
        rw [← hbt_tail]
        exact ha
      have hmapid : bt.map (fun a => if a = v2 then v1 else a) = bt := by
        have h := @List.map_congr_left _ bt _ (fun a => if a = v2 then v1 else a) id
          (fun x hx => if_neg (hne_bt x hx).2)
        rw [h, List.map_id]
      rw [hmapid, hbt_tail]
      exact hblkfst.tail
  · have e3 : an3 = an2 := by rw [han3, if_neg hh]
    have en : numDel = del1 := by rw [hnumDel, if_neg hh]
    have hcnt : x1 + n1 + n2 - numDel - x1 = blk.length := by omega
    rw [hcnt, e3, ← List.map_drop, hdropx1, List.map_append,
      List.take_left' (by rw [List.length_map, List.length_map])]
    exact (sortedLe_iff_chain' _).mpr (chain'_map_rewrite h12 _ hblkfst htailne)

theorem appendVertex_preserves (g : MetisGraph) (adj : List Nat) (w : List Int) (vw : Int)
    (hWF : g.WF) (hlen : adj.length = w.length) :
    (g.appendVertex adj w vw).sizesOk ∧
    (g.blocksSorted → sortedLe adj = true → (g.appendVertex adj w vw).blocksSorted) := by
  obtain ⟨hxlen, hvlen, hawlen, hT, hsortx⟩ := hWF
  have hpair : List.Pairwise (· ≤ ·) g.xadj :=
    List.chain'_iff_pairwise.mp ((sortedLe_iff_chain' _).mp hsortx)
  have hmono : ∀ i j, i ≤ j → j < g.xadj.length → g.xadj.getD i 0 ≤ g.xadj.getD j 0 := by
    intro i j hij hj
    rcases Nat.eq_or_lt_of_le hij with rfl | hlt
    · exact le_rfl
    · rw [List.getD_eq_getElem _ _ (lt_trans hlt hj), List.getD_eq_getElem _ _ hj]
      exact List.pairwise_iff_getElem.mp hpair i j (lt_trans hlt hj) hj hlt
  set nv := g.num_vertices with hnv
  set L := g.adjncy.length with hL
  have hgetD_keep : ∀ i, i < nv + 1 →
      (g.xadj ++ [g.xadj.getD nv 0 + adj.length]).getD i 0 = g.xadj.getD i 0 := by
    intro i hi
    exact List.getD_append _ _ _ _ (by omega)
  have hgetD_new :
      (g.xadj ++ [g.xadj.getD nv 0 + adj.length]).getD (nv + 1) 0
        = g.xadj.getD nv 0 + adj.length := by
    rw [List.getD_append_right _ _ _ _ (by omega), hxlen]
    simp
  constructor
  · refine ⟨by simp [MetisGraph.appendVertex, hxlen], ?_, ?_⟩
    · simp only [MetisGraph.appendVertex, List.length_append]
      omega
    · simp only [MetisGraph.appendVertex]
      rw [hgetD_new, List.length_append, ← hT]
  · intro hbs hadj
    intro v hv
    simp only [MetisGraph.appendVertex] at hv ⊢
    rw [MetisGraph.blockOf]
    simp only [MetisGraph.appendVertex]
    rcases Nat.lt_or_ge v nv with hvlt | hvge
    · rw [hgetD_keep v (by omega), hgetD_keep (v + 1) (by omega)]
      have hvx : g.xadj.getD (v + 1) 0 ≤ L := by
        rw [hT]; exact hmono (v + 1) nv (by omega) (by omega)
      have hvx0 : g.xadj.getD v 0 ≤ g.xadj.getD (v + 1) 0 :=
        hmono v (v + 1) (by omega) (by omega)
      rw [List.drop_append_eq_append_drop, List.take_append_eq_append_take]
      have h0 : (List.drop (g.xadj.getD v 0) g.adjncy).length = L - g.xadj.getD v 0 := by
        rw [List.length_drop]
      rw [show g.xadj.getD (v + 1) 0 - g.xadj.getD v 0
            - (List.drop (g.xadj.getD v 0) g.adjncy).length = 0 from by rw [h0]; omega,
        List.take_zero, List.append_nil]
      have hsame := hbs v hvlt
      rw [MetisGraph.blockOf] at hsame
      exact hsame
    · have hveq : v = nv := by omega
      rw [hveq, hgetD_keep nv (by omega), hgetD_new,
        List.drop_left' (by rw [← hL]; exact hT),
        show g.xadj.getD nv 0 + adj.length - g.xadj.getD nv 0 = adj.length from by omega,
        List.take_length]
      exact hadj

/-! ## Serialization lemmas -/

theorem unpackVecZ_packVecZ (v r : List Int) : unpackVecZ (packVecZ v ++ r) = (v, r) := by
  simp only [packVecZ, List.cons_append, unpackVecZ, readVal, Int.toNat_natCast]
  rw [List.take_left, List.drop_left]

theorem unpackVecZ_packVecN (v : List Nat) (r : List Int) :
    unpackVecZ (packVecN v ++ r) = (v.map Int.ofNat, r) := by
  simp only [packVecN, List.cons_append, unpackVecZ, readVal, Int.toNat_natCast]
  conv_lhs => rw [← List.length_map v Int.ofNat]
  rw [List.take_left, List.drop_left]

/-! ## Claim theorems -/

/-- Claim C1 (code bug): `MetisGraph::mergeVertices` is supposed to
mirror `TensorNetwork.merge` on weights -- deleting the contracted edges
and combining parallel-edge weights additively in log-space with the +1
offset -- so merging vertices 1 and 2 of the path `0 -[5]- 1 -[3]- 2`
(weight sum 29) should leave the surviving edge `0 -[5]- 1'` with weight
5 on both sides, for a conserved total of `29 - (3 + 3) - 1 = 22`.  The
code instead loads the edge weights of the merged block from `adjncy_`
(metis_graph.cpp:385,389), so the merged vertex's surviving edge weight
becomes the adjacent vertex id `0` and the total drops to 17. -/
theorem claim_C1_merge_weight_conservation :
    exG1.mergeVertices 1 2 = (true,
      { num_vertices := 2, xadj := [0, 1, 2], adjncy := [1, 0],
        vwgt := [2, 10], adjwgt := [5, 0], renumber := [] }) ∧
    exG1.sumWeights = 29 ∧
    (exG1.mergeVertices 1 2).2.sumWeights = 17 ∧
    29 - (3 + 3) - 1 = (22 : Int) ∧ (17 : Int) < 22 := by decide

/-- Claim C2 counterexample: the claim says the per-operation write
bitset marks exactly operand 0 as written for every opcode, including
DECOMPOSE_SVD2; but `TensorOpDecomposeSVD2` passes `1+1*2+0*4`
(tensor_op_decompose_svd2.cpp:18), whose bit 1 marks operand 1 as
written too. -/
theorem claim_C2_counterexample :
    writesOperand TensorOpDecomposeSVD2 1 = true ∧
    TensorOpDecomposeSVD2.num_operands = 3 := by decide

/-- Claim C2 (amended): every primitive operation's bitset marks operand
0 as written; CREATE, TRANSFORM and CONTRACT mark only operand 0, while
DECOMPOSE_SVD2 marks operands 0 and 1 (its two output factors) and
leaves operand 2 (the decomposed input) read-only. -/
theorem claim_C2_write_roles_amended :
    (∀ op ∈ primitiveOps, writesOperand op 0 = true) ∧
    (∀ i, i < TensorOpCreate.num_operands → (writesOperand TensorOpCreate i = true ↔ i = 0)) ∧
    (∀ i, i < TensorOpTransform.num_operands →
      (writesOperand TensorOpTransform i = true ↔ i = 0)) ∧
    (∀ i, i < TensorOpContract.num_operands →
      (writesOperand TensorOpContract i = true ↔ i = 0)) ∧
    (∀ i, i < TensorOpDecomposeSVD2.num_operands →
      (writesOperand TensorOpDecomposeSVD2 i = true ↔ i ≤ 1)) := by
  decide

/-- Claim C2 witness: the amended theorem applied to the CONTRACT
operation at operand index 2 and to DECOMPOSE_SVD2 at operand index 1. -/
theorem claim_C2_witness :
    (writesOperand TensorOpContract 2 = true ↔ (2 : Nat) = 0) ∧
    (writesOperand TensorOpDecomposeSVD2 1 = true ↔ (1 : Nat) ≤ 1) :=
  ⟨claim_C2_write_roles_amended.2.2.2.1 2 (by decide),
   claim_C2_write_roles_amended.2.2.2.2 1 (by decide)⟩

/-- Claim C3 (code bug): on the two-vertex graph `exG2` (open volumes 2,
edge extent 8), the cost model's FMA flop estimate is
`left_vol * right_vol / contr_vol = 16 * 16 / 8 = 32`, which also equals
`sqrt(vol0*vol1*vol2) = sqrt(4*16*16) = 32`, the value
`TensorOpContract::getFlopEstimate` would return for the matching
CONTRACT operation.  `MetisGraph::getContractionCost` however returns
its local `flops` variable initialized to `0.0` and never assigned
(metis_graph.cpp:330,349), while still writing the correct intermediate
volume 4 and differential volume `4 - 32` through the output pointers. -/
theorem claim_C3_contraction_cost_zero :
    exG2.getContractionCost 0 1 = (0, some 4, some (-28)) ∧
    specFMAFlops 16 16 8 = 32 ∧
    (exG2.getContractionCost 0 1).1 < specFMAFlops 16 16 8 ∧
    contractFlopEstimateSq true 4 16 16 = 1024 ∧ ((32 : ℚ)) ^ 2 = 1024 := by
  have h : exG2.getContractionCost 0 1 = (0, some 4, some (-28)) := by
    simp [MetisGraph.getContractionCost, exG2, MetisGraph.appendVertex, MetisGraph.empty]
    norm_num
  refine ⟨h, by norm_num [specFMAFlops], ?_, by norm_num [contractFlopEstimateSq], by norm_num⟩
  rw [h]
  norm_num [specFMAFlops]

/-- Claim C4 (code bug): the gradient-descent loop of
`TensorNetworkReconstructor::reconstruct` (reconstructor.cpp:143-175)
only exits when `max_grad_maxabs <= tolerance_`; the stored
`max_iterations_` cap is never consulted.  With a gradient oracle that
always reports max-abs norm 1 and tolerance 0, the loop never
terminates, no matter the configured cap and no matter how many sweeps
it is allowed to run. -/
theorem claim_C4_no_iteration_cap (max_iterations : Nat) (fuel iteration : Nat) :
    reconstructLoop max_iterations gradAlwaysOne 0 fuel iteration = none := by
  induction fuel generalizing iteration with
  | zero => rfl
  | succ n ih => norm_num [reconstructLoop, maxGradMaxabs, gradAlwaysOne, ih]

/-- Claim C5: unpacking the byte packet produced by packing a
`MetisGraph` yields a graph equal to the original (in the sense of
`operator==`, which compares `num_vertices_`, `xadj_`, `adjncy_`,
`vwgt_`, `adjwgt_` and `renumber_`), with the fields serialized in the
order `num_vertices`, `renumber`, `xadj`, `adjncy`, `vwgt`, `adjwgt`,
each vector as a length followed by its elements; any trailing packet
content is left unread. -/
theorem claim_C5_pack_unpack_roundtrip (g : MetisGraph) (rest : List Int) :
    MetisGraph.unpack (g.pack ++ rest) = (g, rest) ∧
    MetisGraph.eqOp (MetisGraph.unpack g.pack).1 g = true := by
  have key : ∀ r, MetisGraph.unpack (g.pack ++ r) = (g, r) := by
    intro r
    simp only [MetisGraph.pack, MetisGraph.unpack, List.cons_append, List.append_assoc,
      readVal, unpackVecZ_packVecN, unpackVecZ_packVecZ, toNat_cast_list, Int.toNat_natCast]
  refine ⟨key rest, ?_⟩
  have h2 : MetisGraph.unpack g.pack = (g, []) := by
    have hk := key []
    rwa [List.append_nil] at hk
  rw [h2]
  simp [MetisGraph.eqOp]

/-- Claim C6 counterexample: after merging vertices 0 and 2 of the
four-vertex star `exStar`, the size invariants still hold, but the
adjacency list of vertex 2 (the old center) is `[0, 1, 0]`: the merge
rewrites its entry `2` to `0` in place (metis_graph.cpp:440) without
re-sorting or combining, so the sortedness invariant is violated for a
valid vertex. -/
theorem claim_C6_counterexample :
    (exStar.mergeVertices 0 2).1 = true ∧
    (exStar.mergeVertices 0 2).2.sizesOk ∧
    (exStar.mergeVertices 0 2).2.blockOf 2 = [0, 1, 0] ∧
    sortedLe ((exStar.mergeVertices 0 2).2.blockOf 2) = false ∧
    2 < (exStar.mergeVertices 0 2).2.num_vertices := by decide

/-- Claim C6 (amended): after `appendVertex` on a well-formed graph the
size invariants hold (`xadj.size() == num_vertices+1`,
`adjncy.size() == adjwgt.size() == xadj[num_vertices]`), and sortedness
of all adjacency lists is preserved provided the appended list is
sorted; after a successful `mergeVertices` the size invariants hold and
the merged vertex's own adjacency list is sorted -- but the adjacency
lists of other vertices may lose sortedness (entries equal to `vertex2`
are rewritten to `vertex1` in place, see the counterexample). -/
theorem claim_C6_invariants_amended :
    (∀ (g : MetisGraph) (adj : List Nat) (w : List Int) (vw : Int),
      g.WF → adj.length = w.length →
      ((g.appendVertex adj w vw).sizesOk ∧
       (g.blocksSorted → sortedLe adj = true → (g.appendVertex adj w vw).blocksSorted))) ∧
    (∀ (g : MetisGraph) (u v : Nat), g.WF → (g.mergeVertices u v).1 = true →
      ((g.mergeVertices u v).2.sizesOk ∧
       (g.mergeVertices u v).2.vwgt.length = (g.mergeVertices u v).2.num_vertices ∧
       (g.blocksSorted →
         sortedLe ((g.mergeVertices u v).2.blockOf (min u v)) = true))) := by
  refine ⟨appendVertex_preserves, ?_⟩
  intro g u v hWF hs
  by_cases hc : u = v ∨ g.num_vertices ≤ u ∨ g.num_vertices ≤ v
  · rw [MetisGraph.mergeVertices] at hs
    simp only [if_pos hc] at hs
    exact absurd hs (by simp)
  · have hWF' : MetisGraph.WF { g with renumber := [] } := hWF
    have h12 : min u v < max u v := by
      push_neg at hc
      rcases hc with ⟨hne, _, _⟩
      omega
    have h2 : max u v < g.num_vertices := by
      push_neg at hc
      omega
    rw [MetisGraph.mergeVertices]
    simp only [if_neg hc]
    obtain ⟨hsz, hvl⟩ :=
      mergeBody_sizes { g with renumber := [] } (min u v) (max u v) hWF' h12 h2
    refine ⟨hsz, hvl, ?_⟩
    intro hbs
    exact mergeBody_block_sorted { g with renumber := [] } (min u v) (max u v) hWF' hbs h12 h2

/-- Claim C6 witness: the amended theorem applied to the well-formed
path graph `exG1`: appending a vertex adjacent to vertex 0 keeps the
size invariants, and merging vertices 1 and 2 keeps the size invariants
and leaves the merged vertex's adjacency list sorted. -/
theorem claim_C6_witness :
    (exG1.appendVertex [0] [2] 3).sizesOk ∧
    (exG1.mergeVertices 1 2).2.sizesOk ∧
    sortedLe ((exG1.mergeVertices 1 2).2.blockOf 1) = true :=
  ⟨(claim_C6_invariants_amended.1 exG1 [0] [2] 3 (by decide) (by decide)).1,
   (claim_C6_invariants_amended.2 exG1 1 2 (by decide) (by decide)).1,
   (claim_C6_invariants_amended.2 exG1 1 2 (by decide) (by decide)).2.2 (by decide)⟩

/-- Claim C7: `TensorConn::conjugate()` toggles the conjugation flag
exactly when the vertex id is nonzero (the output vertex, id 0, is never
marked conjugated), and reverses the direction of every leg -- directed
legs flip between INWARD and OUTWARD while undirected legs are
unchanged; applying `conjugate()` twice restores the original connected
tensor. -/
theorem claim_C7_conjugate_involution (tc : TensorConn) :
    (tc.id = 0 → tc.conjugate.conjugated = tc.conjugated) ∧
    (tc.id ≠ 0 → tc.conjugate.conjugated = !tc.conjugated) ∧
    tc.conjugate.legs = tc.legs.map TensorLeg.reverseDirection ∧
    LegDirection.reverseDirection .UNDIRECT = .UNDIRECT ∧
    LegDirection.reverseDirection .INWARD = .OUTWARD ∧
    LegDirection.reverseDirection .OUTWARD = .INWARD ∧
    tc.conjugate.conjugate = tc := by
  have hrev : ∀ l : TensorLeg, l.reverseDirection.reverseDirection = l := by
    rintro ⟨t, d, dir⟩
    cases dir <;> rfl
  have hcomp : TensorLeg.reverseDirection ∘ TensorLeg.reverseDirection = id := funext hrev
  refine ⟨?_, ?_, rfl, rfl, rfl, rfl, ?_⟩
  · intro h; simp [TensorConn.conjugate, h]
  · intro h; simp [TensorConn.conjugate, h]
  · rcases tc with ⟨i, legs, c⟩
    by_cases h : i = 0 <;>
      simp [TensorConn.conjugate, h, List.map_map, hcomp]

/-- Claim C7 witness: the theorem applied to the concrete input vertex
`exConn` (id 1), whose conjugation flag toggles. -/
theorem claim_C7_witness : exConn.conjugate.conjugated = !exConn.conjugated :=
  (claim_C7_conjugate_involution exConn).2.1 (by decide)

/-- Claim C8 counterexample: the claim says the reported fidelity always
lies in `[0,1]`; but `reconstruct` sets
`fidelity_ = overlap_abs * overlap_abs` (reconstructor.cpp:194) without
normalizing, so a run whose evaluated overlap has modulus 2 (possible
for unnormalized expansions) reports fidelity 4 > 1. -/
theorem claim_C8_counterexample : fidelityOf 2 = 4 ∧ (1 : ℚ) < fidelityOf 2 := by
  norm_num [fidelityOf]

/-- Claim C8 (amended): the reported fidelity equals the squared modulus
of the evaluated overlap `<approximant|expansion>` and is nonnegative;
it is not clamped to `[0,1]` (that holds only for normalized
expansions). -/
theorem claim_C8_fidelity_amended (overlap_abs : ℚ) (h : 0 ≤ overlap_abs) :
    fidelityOf overlap_abs = overlap_abs ^ 2 ∧ 0 ≤ fidelityOf overlap_abs :=
  ⟨by rw [fidelityOf, sq], mul_self_nonneg overlap_abs⟩

/-- Claim C8 witness: the amended theorem at overlap modulus 2. -/
theorem claim_C8_witness : fidelityOf 2 = 2 ^ 2 ∧ 0 ≤ fidelityOf 2 :=
  claim_C8_fidelity_amended 2 (by norm_num)

/-- Claim C9: the `MPICommProxy` destructor calls `MPI_Comm_free`
exactly when the `destroy_on_free_` bit is set, the proxy is non-empty,
it holds the last reference (`use_count == 1`), and the communicator is
`MPI_IDENT` to neither `MPI_COMM_WORLD` nor `MPI_COMM_SELF`; in
particular it never frees `MPI_COMM_WORLD` or `MPI_COMM_SELF`. -/
theorem claim_C9_destructor_guard (s : MPICommProxyState) :
    destructorFrees s = true ↔
      (s.destroy_on_free = true ∧ s.is_empty = false ∧ s.use_count = 1 ∧
       s.ident_world = false ∧ s.ident_self = false) := by
  rcases s with ⟨d, e, u, w, f⟩
  simp only [destructorFrees]
  split_ifs <;> simp_all

/-- Claim C10: `TensorNetworkReconstructor::getSolution` returns a null
expansion pointer exactly when the stored fidelity is `0.0`; otherwise
it writes the stored residual norm and fidelity through the output
pointers and returns the approximant. -/
theorem claim_C10_getSolution {α : Type} (st : ReconstructorState α) :
    (getSolution st = none ↔ st.fidelity = 0) ∧
    (st.fidelity ≠ 0 →
      getSolution st = some (st.residual_norm2, st.fidelity, st.approximant)) := by
  unfold getSolution
  split_ifs with h <;> simp [h]

/-- Claim C10 witness: the theorem at a concrete state with nonzero
fidelity. -/
theorem claim_C10_witness :
    getSolution ⟨3, 2, (5 : Nat)⟩ = some (3, 2, 5) :=
  (claim_C10_getSolution ⟨3, 2, (5 : Nat)⟩).2 (by norm_num)

end ExaTN

